import Mathlib

/-!
Shallow embedding of the mdpc-gf4 repository (McEliece over non-binary
QC-MDPC codes, GF(4) instance) and verification of its specification.

Sources embedded (authoritative files under src/):
* `src/gf4.h`          : the field GF(4) (tables GF4_MULTIPLICATION, GF4_DIVISION,
                         XOR addition, nonzero_elements, get_max_value).
* `src/polynomial.h`   : `PolynomialGF2N`, coefficient vector with no separate
                         degree field (`get_degree() = coefficients.size() - 1`).
* `src/xgcd.h`         : `TransformMatrixGF2N` (including its `adjugate`),
                         `half_gcd`, `full_gcd`.
* `src/random.h`       : `Random::random_weighted_vector_over_GF2N`.
* `src/contexts.h`     : `EncodingContext::encode`,
                         `DecodingContext::calculate_syndrome`,
                         `DecodingContext::decode`, `generate_contexts_over_GF2N`.

Modelling conventions:
* A polynomial is its C++ coefficient vector, a `List GF4` (index 0 = constant
  term).  The C++ degree is `coefficients.size() - 1` computed in `size_t`, so
  the degree of an empty vector is `2^64 - 1`; `szdeg` reproduces this.
* C++ exceptions are modelled by `Res.exn`, out-of-bounds vector accesses
  (undefined behaviour) by `Res.ub`, and non-termination of loops and
  recursions by an explicit fuel parameter whose exhaustion yields
  `Res.diverge`.  Fuel bounds are chosen so that every terminating C++
  execution fits (for `div_rem` the loop count is bounded by the dividend
  length, proved by the strict decrease of the remainder degree; callers of
  recursive functions receive the fuel explicitly).
* The PRNG (`std::mt19937` behind `Random::integer(lo, hi)`) is modelled by an
  arbitrary stream `Nat → Nat` together with a draw counter; the sampled value
  of draw `n` in `[lo, hi]` is `lo + s n % (hi + 1 - lo)`.  Properties proved
  for all streams hold for every PRNG behaviour; concrete streams witness
  reachable outcomes of the actual generator.
-/

/-- 2^64, the modulus of `size_t` arithmetic. -/
def SZ : Nat := 18446744073709551616

/-- The field GF(4), elements 0, 1, alpha = 2, alpha + 1 = 3 (src/gf4.h). -/
abbrev GF4 := Fin 4

/-- GF(4) addition: bitwise XOR of the integer representation (src/gf4.h,
`operator+`, characteristic 2; addition equals subtraction). -/
def gf4Add (a b : GF4) : GF4 := ⟨a.val ^^^ b.val, by revert a b; decide⟩

/-- GF(4) multiplication, the `GF4_MULTIPLICATION` Cayley table of src/gf4.h. -/
def gf4Mul (a b : GF4) : GF4 :=
  match a.val, b.val with
  | 0, _ => 0
  | _, 0 => 0
  | 1, _ => b
  | _, 1 => a
  | 2, 2 => 3
  | 2, 3 => 1
  | 3, 2 => 1
  | _, _ => 2

/-- C++ error kinds: the exception types of src/custom_exceptions.h plus
`IncorrectPolynomialDegree`, which src/xgcd.h throws although no definition of
it exists anywhere in the repository (the snapshot does not compile as-is). -/
inductive CErr where
  | divisionByZero
  | incorrectInputVectorLength
  | incorrectValueRange
  | impossibleHammingWeight
  | wtf
  | incorrectPolynomialDegree
  deriving DecidableEq, Repr

/-- Result of running a piece of embedded C++ code: a value, a thrown
exception, undefined behaviour (out-of-bounds vector access), or
non-termination (fuel exhaustion of a loop the source runs forever). -/
inductive Res (α : Type) where
  | ok (a : α)
  | exn (e : CErr)
  | ub
  | diverge
  deriving DecidableEq, Repr

def Res.bind {α β : Type} : Res α → (α → Res β) → Res β
  | .ok a, f => f a
  | .exn e, _ => .exn e
  | .ub, _ => .ub
  | .diverge, _ => .diverge

instance : Monad Res where
  pure := Res.ok
  bind := Res.bind

/-- GF(4) division, the `GF4_DIVISION` table of src/gf4.h; division by zero
throws `DivisionByZero`. -/
def gf4Div (a b : GF4) : Res GF4 :=
  match b.val with
  | 0 => .exn .divisionByZero
  | 1 => .ok a
  | 2 => .ok (match a.val with | 0 => 0 | 1 => 3 | 2 => 1 | _ => 2)
  | _ => .ok (match a.val with | 0 => 0 | 1 => 2 | 2 => 3 | _ => 1)

/-- `GF4::nonzero_elements()` — the fixed enumeration {1, alpha, alpha+1}. -/
def nonzeroElements : List GF4 := [1, 2, 3]

/-- `GF4::get_max_value()` = 3. -/
def gf4MaxValue : Nat := 3

/-- A polynomial over GF(4): the raw C++ coefficient vector (index 0 is the
constant term), exactly as stored by `PolynomialGF2N`. -/
abbrev PolyG := List GF4

/-- `get_degree()` of src/polynomial.h: `coefficients.size() - 1` in `size_t`
arithmetic, so the empty vector has degree `2^64 - 1`. -/
def szdeg (cs : PolyG) : Nat := (cs.length + SZ - 1) % SZ

/-- `get_degree()` as used inside the polynomial operations: every embedded
caller guards the empty vector (where the C++ value would wrap to `2^64 - 1`,
see `szdeg`), so the plain `size - 1` is faithful there.  The one operation
reaching it with a possibly empty vector, `div_rem`, returns the same result
under both readings (both run the else branch into an immediately-false loop
guard, or the early exit, producing `({0}, a)`). -/
def degN (cs : PolyG) : Nat := cs.length - 1

/-- The net effect of the degree-tracking scans of src/polynomial.h
(`size_t degree = 0; ... if (!c[i].is_zero()) degree = i; ... resize(degree+1)`):
cut the vector after its highest non-zero entry, keeping one element (the
scan leaves `degree = 0`, and `resize(1)`, when no entry beyond index 0 is
non-zero). -/
def trimTrailing (cs : PolyG) : PolyG :=
  let r := (cs.reverse.dropWhile (fun c => c == 0)).reverse
  if r.isEmpty then cs.take 1 else r

/-- `is_zero()` of src/polynomial.h. -/
def polyIsZero (cs : PolyG) : Bool :=
  cs.isEmpty || (degN cs == 0 && cs.getD 0 0 == 0)

/-- `is_one()` of src/polynomial.h. -/
def polyIsOne (cs : PolyG) : Bool :=
  cs.isEmpty || (degN cs == 0 && cs.getD 0 0 == 1)

/-- `get_coefficient(deg)`: zero above the degree, else the stored entry.
(Faithful for non-empty vectors; on the empty vector the C++ code would read
out of bounds, but every embedded caller guards that case.) -/
def polyGet (cs : PolyG) (deg : Nat) : GF4 :=
  if deg > degN cs then 0 else cs.getD deg 0

/-- Reading `vec[i]` from a `std::vector`: out of bounds is UB. -/
def vecGet (cs : List GF4) (i : Nat) : Res GF4 :=
  if h : i < cs.length then .ok (cs.get ⟨i, h⟩) else .ub

/-- Writing `vec[i] = v`: out of bounds is UB. -/
def vecSet (cs : List GF4) (i : Nat) (v : GF4) : Res (List GF4) :=
  if i < cs.length then .ok (cs.set i v) else .ub

/-- The default constructor `PolynomialGF2N()`: vector `{0}`. -/
def polyZero : PolyG := [0]

/-- `make_zero()`. -/
def mkZero : PolyG := polyZero

/-- `make_one()`. -/
def mkOne : PolyG := [1]

/-- The constructor `PolynomialGF2N(const std::vector<T>&)` of
src/polynomial.h: scan for the highest non-zero index; if it is non-zero,
truncate there; otherwise (all-zero input, or the only non-zero entry is the
constant term — a quirk of the source) the result is `{0}`. -/
def polyFromCoeffs (coeffs : List GF4) : PolyG :=
  let t := trimTrailing coeffs
  if t.length ≤ 1 then [0] else t

/-- `set_coefficient(deg, value)` of src/polynomial.h.  The branch writing a
zero beyond the current degree performs an out-of-bounds `coefficients[deg]`
write (UB); writing a zero at the leading position rescans downward and can
leave the vector empty. -/
def polySetCoeff (cs : PolyG) (deg : Nat) (value : GF4) : Res PolyG :=
  if cs.isEmpty then .ub
  else if deg > degN cs ∧ value ≠ 0 then
    .ok ((cs ++ List.replicate (deg + 1 - cs.length) 0).set deg value)
  else if deg = degN cs ∧ value = 0 then
    let t := trimTrailing (cs.set deg value)
    if t.length ≤ 1 then .ok [] else .ok t
  else
    vecSet cs deg value

/-- `operator+` of src/polynomial.h (also `operator-`, which aliases to it in
characteristic 2).  On an empty operand the first loop iteration reads out of
bounds (UB); otherwise: if `deg this > deg other`, the output has the length
of `this` with no trailing rescan; else the output is rescanned and truncated
at its highest non-zero coefficient. -/
def polyAdd (a b : PolyG) : Res PolyG :=
  if a.isEmpty ∨ b.isEmpty then .ub
  else if a.length > b.length then
    .ok ((List.range a.length).map (fun i => gf4Add (a.getD i 0) (polyGet b i)))
  else
    let out := (List.range b.length).map (fun i => gf4Add (polyGet a i) (b.getD i 0))
    .ok (trimTrailing out)

/-- `operator-` of src/polynomial.h: defined as `*this + other`. -/
def polySub (a b : PolyG) : Res PolyG := polyAdd a b

/-- One update of the `operator*` double loop: accumulate
`out[i+j] += a[i] * b[j]` and track the highest index seen non-zero. -/
def mulStep (a b : PolyG) (st : List GF4 × Nat) (p : Nat × Nat) : List GF4 × Nat :=
  let c := gf4Add (st.1.getD (p.1 + p.2) 0) (gf4Mul (a.getD p.1 0) (b.getD p.2 0))
  (st.1.set (p.1 + p.2) c,
   if c ≠ 0 ∧ p.1 + p.2 > st.2 then p.1 + p.2 else st.2)

/-- The lexicographic pair enumeration of the `operator*` double loop. -/
def mulPairs (da db : Nat) : List (Nat × Nat) :=
  (List.range (da + 1)).flatMap (fun i => (List.range (db + 1)).map (fun j => (i, j)))

/-- `operator*` of src/polynomial.h: allocate `deg a + deg b + 1` zeros, run
the double accumulation loop tracking the highest non-zero index, truncate
there.  Empty operands make the C++ loop read out of bounds (UB). -/
def polyMul (a b : PolyG) : Res PolyG :=
  if a.isEmpty ∨ b.isEmpty then .ub
  else
    let da := a.length - 1
    let db := b.length - 1
    let st := (mulPairs da db).foldl (mulStep a b) (List.replicate (da + db + 1) 0, 0)
    .ok (st.1.take (st.2 + 1))

/-- `operator*=(scalar)` of src/polynomial.h: scale every coefficient,
track the highest non-zero index, truncate there. -/
def polyScalarMul (a : PolyG) (s : GF4) : Res PolyG :=
  if a.isEmpty then .ub
  else
    let out := a.map (fun c => gf4Mul c s)
    .ok (trimTrailing out)

/-- `div_x_to_deg(deg)` of src/polynomial.h: erase the first `deg`
coefficients; erasing past the end is UB. -/
def polyDivXToDeg (a : PolyG) (deg : Nat) : Res PolyG :=
  if deg ≤ a.length then .ok (a.drop deg) else .ub

/-- The `while` loop of `div_rem`, with explicit fuel.  State: quotient `q`,
remainder `r`.  Each iteration builds the monomial `t`, adds it to `q` and
subtracts `t * other` from `r` (char 2: subtraction is addition). -/
def divRemLoop (b : PolyG) (bLead : GF4) : Nat → PolyG → PolyG → Res (PolyG × PolyG)
  | 0, _, _ => .diverge
  | fuel + 1, q, r =>
    if ¬polyIsZero r ∧ degN r ≥ degN b then
      match gf4Div (r.getD (r.length - 1) 0) bLead with
      | .ok lead =>
        let t : PolyG := List.replicate (degN r - degN b) 0 ++ [lead]
        match polyAdd q t, polyMul t b with
        | .ok q1, .ok tb =>
          match polyAdd r tb with
          | .ok r1 => divRemLoop b bLead fuel q1 r1
          | .exn e => .exn e
          | .ub => .ub
          | .diverge => .diverge
        | .exn e, _ => .exn e
        | _, .exn e => .exn e
        | _, _ => .ub
      | .exn e => .exn e
      | _ => .ub
    else .ok (q, r)

/-- `div_rem(other)` of src/polynomial.h: schoolbook long division.  Throws
`DivisionByZero` on a zero divisor; otherwise returns `(q, r)`.  The fuel
`a.length + 2` covers every terminating C++ execution (the remainder degree
strictly decreases each iteration); executions the C++ loop runs forever
(possible only on non-canonical vectors) yield `diverge`. -/
def polyDivRem (a b : PolyG) : Res (PolyG × PolyG) :=
  if polyIsZero b then .exn .divisionByZero
  else if degN a < degN b then .ok (polyZero, a)
  else divRemLoop b (b.getD (b.length - 1) 0) (a.length + 2) polyZero a

/-- `operator/`: the quotient of `div_rem`. -/
def polyDiv (a b : PolyG) : Res PolyG := do
  let qr ← polyDivRem a b
  pure qr.1

/-- `operator%`: the remainder of `div_rem`. -/
def polyMod (a b : PolyG) : Res PolyG := do
  let qr ← polyDivRem a b
  pure qr.2

/-- `TransformMatrixGF2N` of src/xgcd.h: a 2x2 matrix of polynomials. -/
structure TMat where
  a00 : PolyG
  a01 : PolyG
  a10 : PolyG
  a11 : PolyG
  deriving DecidableEq, Repr

/-- Matrix product (src/xgcd.h `operator*`). -/
def tmMul (m o : TMat) : Res TMat := do
  let x00 ← do let u ← polyMul m.a00 o.a00; let v ← polyMul m.a01 o.a10; polyAdd u v
  let x01 ← do let u ← polyMul m.a00 o.a01; let v ← polyMul m.a01 o.a11; polyAdd u v
  let x10 ← do let u ← polyMul m.a10 o.a00; let v ← polyMul m.a11 o.a10; polyAdd u v
  let x11 ← do let u ← polyMul m.a10 o.a01; let v ← polyMul m.a11 o.a11; polyAdd u v
  pure ⟨x00, x01, x10, x11⟩

/-- `adjugate()` of src/xgcd.h, embedded verbatim: it returns
`{a11, a01, a10, a11}` — the bottom-right entry is `a11` again, where the
mathematical adjugate (in characteristic 2) would have `a00`. -/
def tmAdjugate (m : TMat) : TMat := ⟨m.a11, m.a01, m.a10, m.a11⟩

/-- `transform(a, b)` of src/xgcd.h: `(a00*a + a01*b, a10*a + a11*b)`. -/
def tmTransform (m : TMat) (a b : PolyG) : Res (PolyG × PolyG) := do
  let x ← do let u ← polyMul m.a00 a; let v ← polyMul m.a01 b; polyAdd u v
  let y ← do let u ← polyMul m.a10 a; let v ← polyMul m.a11 b; polyAdd u v
  pure (x, y)

/-- The identity transform matrix. -/
def tmId : TMat := ⟨mkOne, mkZero, mkZero, mkOne⟩

/-- `half_gcd(A, B)` of src/xgcd.h, with explicit recursion fuel.  All degree
comparisons and the shift `k = 2*m - deg B` are `size_t` arithmetic (`szdeg`),
so they wrap on empty vectors, exactly as the source does. -/
def halfGcd : Nat → PolyG → PolyG → Res (List PolyG × TMat)
  | 0, _, _ => .diverge
  | fuel + 1, A, B =>
    if szdeg A < szdeg B then .exn .incorrectPolynomialDegree
    else
      let m := ((szdeg A + 1) % SZ) / 2
      if szdeg B < m then .ok ([], tmId)
      else do
        let A1 ← polyDivXToDeg A m
        let B1 ← polyDivXToDeg B m
        let (ar, tr) ← halfGcd fuel A1 B1
        let (A2, B2) ← tmTransform (tmAdjugate tr) A B
        if szdeg B2 < m then .ok (ar, tr)
        else do
          let (ai, r) ← polyDivRem A2 B2
          let A3 := B2
          let B3 := r
          let k := (2 * m + SZ - szdeg B3) % SZ
          let A4 ← polyDivXToDeg A3 k
          let B4 ← polyDivXToDeg B3 k
          let (as2, ts) ← halfGcd fuel A4 B4
          let step : TMat := ⟨ai, mkOne, mkOne, mkZero⟩
          let m1 ← tmMul tr step
          let m2 ← tmMul m1 ts
          pure (ar ++ ai :: as2, m2)

/-- The `while (!b.is_zero())` loop of `full_gcd`, with explicit fuel.
Accumulates the quotient list and the matrix list `trs`. -/
def fullGcdLoop : Nat → PolyG → PolyG → List PolyG → List TMat →
    Res (List PolyG × List TMat)
  | 0, _, _, _, _ => .diverge
  | fuel + 1, a, b, ak, trs =>
    if polyIsZero b then .ok (ak, trs)
    else if (2 * szdeg b) % SZ > szdeg a then do
      let (tmp, tr) ← halfGcd fuel a b
      let (a1, b1) ← tmTransform (tmAdjugate tr) a b
      fullGcdLoop fuel a1 b1 (ak ++ tmp) (trs ++ [tr])
    else do
      let (d, r) ← polyDivRem a b
      fullGcdLoop fuel b r (ak ++ [d]) (trs ++ [⟨d, mkOne, mkOne, mkZero⟩])

/-- The final right-to-left product collapse of `full_gcd`:
`trs[n-2] = trs[n-2] * trs[n-1]; pop` until one matrix remains. -/
def tmFoldProd (trs : List TMat) : Res TMat :=
  match trs with
  | [] => .ok tmId
  | [t] => .ok t
  | t :: rest => do
    let p ← tmFoldProd rest
    tmMul t p

/-- `full_gcd(a, b)` of src/xgcd.h: run the loop, append the identity, and
collapse the accumulated matrices into their ordered product. -/
def fullGcd (fuel : Nat) (a b : PolyG) : Res (List PolyG × TMat) := do
  let (ak, trs) ← fullGcdLoop fuel a b [] []
  let tr ← tmFoldProd (trs ++ [tmId])
  pure (ak, tr)

/-- `PolynomialGF2N::invert(modulus)` of src/polynomial.h: zero modulus throws;
otherwise compute `full_gcd(modulus, *this % modulus)`, form
`g = tr.a11 * a - tr.a01 * b`, return nothing when `deg g != 0`, else the
quotient `tr.a01 / g`. -/
def polyInvert (fuel : Nat) (p modulus : PolyG) : Res (Option PolyG) :=
  if polyIsZero modulus then .exn .divisionByZero
  else do
    let a := modulus
    let b ← polyMod p modulus
    let (_, tr) ← fullGcd fuel a b
    let u ← polyMul tr.a11 a
    let v ← polyMul tr.a01 b
    let g ← polySub u v
    if szdeg g ≠ 0 then pure none
    else do
      let q ← polyDiv tr.a01 g
      pure (some q)

/-- `hamming_weight` of src/vector_utils.h: number of non-zero entries. -/
def hammingWeight (v : List GF4) : Nat := (v.filter (fun t => t ≠ 0)).length

/-- `is_vector_zero` of src/vector_utils.h. -/
def isVectorZero (v : List GF4) : Bool := v.all (fun t => t == 0)

/-- `sum` of src/vector_utils.h: fold of `+=` from the zero element. -/
def vecSum (v : List GF4) : GF4 := v.foldl gf4Add 0

/-- `Random::integer(lo, hi)` (src/random.h), modelled on the stream `s`:
draw number `n` yields `lo + s n % (hi + 1 - lo)`, a value in `[lo, hi]`.
Every value in the range is realised by some stream. -/
def rndInt (s : Nat → Nat) (n lo hi : Nat) : Nat := lo + s n % (hi + 1 - lo)

/-- The first loop of `random_weighted_vector_over_GF2N`: write a non-zero
draw into `out[i]` for `i = 0 .. weight-1`; `out[i]` is UB past the end.  The
first argument counts the remaining iterations (`weight - i`). -/
def rwvFill (s : Nat → Nat) : Nat → Nat → List GF4 → Nat → Res (List GF4 × Nat)
  | 0, _, out, n => .ok (out, n)
  | rem + 1, i, out, n =>
    let valNat := rndInt s n 1 gf4MaxValue
    let val : GF4 := ⟨valNat % 4, Nat.mod_lt _ (by decide)⟩
    match vecSet out i val with
    | .ok out1 => rwvFill s rem (i + 1) out1 (n + 1)
    | _ => .ub

/-- The Fisher–Yates loop of `random_weighted_vector_over_GF2N`:
`j = integer(i, length-1)`, swap `out[i]` and `out[j]` when distinct.  The
first argument counts the remaining iterations (`length - i`; swaps preserve
the length, so the C++ loop runs exactly `length` times). -/
def rwvShuffle (s : Nat → Nat) : Nat → Nat → List GF4 → Nat → Res (List GF4 × Nat)
  | 0, _, out, n => .ok (out, n)
  | rem + 1, i, out, n =>
    let j := rndInt s n i (out.length - 1)
    let out1 := if i ≠ j then (out.set i (out.getD j 0)).set j (out.getD i 0) else out
    rwvShuffle s rem (i + 1) out1 (n + 1)

/-- `Random::random_weighted_vector_over_GF2N(length, weight)` of src/random.h:
resize to `length` zeros, fill the first `weight` slots with non-zero draws
(no weight-vs-length check — `out[i]` is an out-of-bounds write when
`weight > length`), then shuffle the whole vector in place. -/
def randomWeightedVector (s : Nat → Nat) (length weight n : Nat) :
    Res (List GF4 × Nat) := do
  let (out, n1) ← rwvFill s weight 0 (List.replicate length 0) n
  rwvShuffle s out.length 0 out n1

/-- `EncodingContext` of src/contexts.h: the second block of G and `r`. -/
structure EncCtx where
  secondBlockG : List GF4
  blockSize : Nat
  deriving DecidableEq, Repr

/-- `DecodingContext` of src/contexts.h: `h0`, `h1`, `r`, `w`. -/
structure DecCtx where
  h0 : List GF4
  h1 : List GF4
  blockSize : Nat
  blockWeight : Nat
  deriving DecidableEq, Repr

/-- The inner sum of `encode`: `tmp = sum_j message[j] * G[(i+j) % r]`. -/
def encodeEntry (G msg : List GF4) (r i : Nat) : Res GF4 :=
  (List.range r).foldlM
    (fun tmp j => do
      let m ← vecGet msg j
      let g ← vecGet G ((i + j) % r)
      pure (gf4Add tmp (gf4Mul m g)))
    0

/-- `EncodingContext::encode` of src/contexts.h: length check, systematic
copy, then the reversed-index circulant convolution (`i = r` down to `1`). -/
def encode (ec : EncCtx) (message : List GF4) : Res (List GF4) :=
  if message.length ≠ ec.blockSize then .exn .incorrectInputVectorLength
  else do
    let r := ec.blockSize
    let second ← (List.range r).mapM
      (fun t => encodeEntry ec.secondBlockG message r (r - t))
    pure (message ++ second)

/-- The inner sum of `calculate_syndrome`:
`tmp = sum_j h0[(i+j) % r]*vec[j] + h1[(i+j) % r]*vec[r+j]`. -/
def syndromeEntry (h0 h1 vec : List GF4) (r i : Nat) : Res GF4 :=
  (List.range r).foldlM
    (fun tmp j => do
      let x0 ← vecGet h0 ((i + j) % r)
      let v0 ← vecGet vec j
      let x1 ← vecGet h1 ((i + j) % r)
      let v1 ← vecGet vec (r + j)
      pure (gf4Add (gf4Add tmp (gf4Mul x0 v0)) (gf4Mul x1 v1)))
    0

/-- `DecodingContext::calculate_syndrome` of src/contexts.h (outer index
`i = r` down to `1`). -/
def calculateSyndrome (dc : DecCtx) (vec : List GF4) : Res (List GF4) :=
  let r := dc.blockSize
  (List.range r).mapM (fun t => syndromeEntry dc.h0 dc.h1 vec r (r - t))

/-- The score the decoder computes for a candidate flip value `a` against
block `hb` (src/contexts.h, decode inner loops): `w` zeros of
`s_i + a*hb[i]` (the block row is NOT rotated by the candidate position), and
`sigma = syndrome_weight - w` in wrapping `size_t` arithmetic. -/
def sigmaOf (sw : Nat) (s hb : List GF4) (a : GF4) : Nat :=
  let w := ((List.range s.length).filter
    (fun i => gf4Add (s.getD i 0) (gf4Mul a (hb.getD i 0)) = 0)).length
  (sw + SZ - w) % SZ

/-- One comparison step of the decoder's selection scan: candidates `(j, a)`
in scan order, strict `sigma > sigma_max` update. -/
def selStep (score : Nat × GF4 → Nat) (st : Nat × GF4 × Nat) (c : Nat × GF4) :
    Nat × GF4 × Nat :=
  if score c > st.1 then (score c, c.2, c.1) else st

/-- The decoder's candidate enumeration: `j = 0 .. 2r-1` outer,
`a` over `nonzero_elements()` inner. -/
def decodeCands (r : Nat) : List (Nat × GF4) :=
  (List.range (2 * r)).flatMap (fun j => nonzeroElements.map (fun a => (j, a)))

/-- The full selection scan of one decode iteration, starting from the
sentinel state `sigma_max = 2r+1`, `a_max = 0`, `pos = 2r+1`. -/
def decodeScan (r sw : Nat) (s h0 h1 : List GF4) : Nat × GF4 × Nat :=
  (decodeCands r).foldl
    (selStep (fun c => sigmaOf sw s (if c.1 < r then h0 else h1) c.2))
    (2 * r + 1, 0, 2 * r + 1)

/-- One iteration of the decoder's `for (iter ...)` loop (src/contexts.h):
scan all candidates, then apply the selected flip to the syndrome, recompute
`syndrome_weight` as the number of ZERO entries (the source counts
`syndrome[i].is_zero()` here, although it started as the Hamming weight), and
write `error_vector[pos] = a_max` — an out-of-bounds write (UB) when `pos`
still holds the sentinel `2r+1`. -/
def decodeIter (dc : DecCtx) (st : List GF4 × Nat × List GF4) :
    Res (List GF4 × Nat × List GF4) := do
  let (s, sw, e) := st
  let r := dc.blockSize
  let (_, aMax, pos) := decodeScan r sw s dc.h0 dc.h1
  let hb := if pos < r then dc.h0 else dc.h1
  let s1 ← (List.range s.length).mapM
    (fun i => do
      let x ← vecGet hb i
      pure (gf4Add (s.getD i 0) (gf4Mul aMax x)))
  let sw1 := (s1.filter (fun c => c == 0)).length
  let e1 ← vecSet e pos aMax
  pure (s1, sw1, e1)

/-- The decoder's iteration loop, `num_iterations` times. -/
def decodeLoop (dc : DecCtx) : Nat → List GF4 × Nat × List GF4 →
    Res (List GF4 × Nat × List GF4)
  | 0, st => .ok st
  | k + 1, st => do
    let st1 ← decodeIter dc st
    decodeLoop dc k st1

/-- `DecodingContext::decode` of src/contexts.h: length check, syndrome and
its Hamming weight, early return of the all-zero error vector on a zero
syndrome, `num_iterations` flip iterations, then success exactly when the
syndrome ended at zero (`ok none` is the decoder's failure result). -/
def decode (dc : DecCtx) (message : List GF4) (numIterations : Nat) :
    Res (Option (List GF4)) :=
  if message.length ≠ 2 * dc.blockSize then .exn .incorrectInputVectorLength
  else do
    let s ← calculateSyndrome dc message
    let sw := hammingWeight s
    let e : List GF4 := List.replicate (2 * dc.blockSize) 0
    if sw = 0 then pure (some e)
    else do
      let (s1, _, e1) ← decodeLoop dc numIterations (s, sw, e)
      if isVectorZero s1 then pure (some e1) else pure none

/-- `generate_contexts_over_GF2N`'s modulus: a default polynomial whose
coefficients 0 and `block_size` are set to one, i.e. `x^r + 1`
(`1 = -1` in characteristic 2). -/
def genModulus (blockSize : Nat) : Res PolyG := do
  let m1 ← polySetCoeff polyZero 0 1
  polySetCoeff m1 blockSize 1

/-- The body of `generate_contexts_over_GF2N`'s `while (true)` loop
(src/contexts.h): draw `h1`, reject it when its entries sum to zero, try to
invert `h1_poly` modulo `x^r + 1`; on success run the sanity check
`(h1_poly * inverse) % modulus == 1` (throwing `WTF` on failure), build
`second_block_G = {0} - h0_poly * inverse` — with no reduction modulo
`x^r + 1` — and return both contexts.  Returns `none` when this `h1` has no
inverse and the loop must continue. -/
def genTryOnce (s : Nat → Nat) (blockSize blockWeight : Nat) (invFuel : Nat)
    (modulus : PolyG) (h0 : List GF4) (n : Nat) :
    Res (Option (EncCtx × DecCtx) × Nat) := do
  let (h1, n1) ← randomWeightedVector s blockSize blockWeight n
  if vecSum h1 = 0 then pure (none, n1)
  else do
    let h1p := polyFromCoeffs h1
    let mi ← polyInvert invFuel h1p modulus
    match mi with
    | none => pure (none, n1)
    | some inverse => do
      let prod ← polyMul h1p inverse
      let tmp ← polyMod prod modulus
      if ¬polyIsOne tmp then .exn .wtf
      else do
        let h0p := polyFromCoeffs h0
        let hi ← polyMul h0p inverse
        let g ← polySub polyZero hi
        pure (some (⟨g, blockSize⟩, ⟨h0, h1, blockSize, blockWeight⟩), n1)

/-- The `while (true)` retry loop of `generate_contexts_over_GF2N`, with
explicit fuel for the unbounded rejection sampling. -/
def genLoop (s : Nat → Nat) (blockSize blockWeight invFuel : Nat)
    (modulus : PolyG) (h0 : List GF4) : Nat → Nat → Res (EncCtx × DecCtx)
  | 0, _ => .diverge
  | fuel + 1, n => do
    let (r, n1) ← genTryOnce s blockSize blockWeight invFuel modulus h0 n
    match r with
    | some ctxs => pure ctxs
    | none => genLoop s blockSize blockWeight invFuel modulus h0 fuel n1

/-- `generate_contexts_over_GF2N(block_size, block_weight)` of
src/contexts.h: build the modulus `x^r + 1`, draw `h0`, then loop drawing
`h1` until one is invertible. -/
def generateContexts (s : Nat → Nat) (blockSize blockWeight invFuel loopFuel : Nat) :
    Res (EncCtx × DecCtx) := do
  let modulus ← genModulus blockSize
  let (h0, n1) ← randomWeightedVector s blockSize blockWeight 0
  genLoop s blockSize blockWeight invFuel modulus h0 loopFuel n1


/-- The concrete PRNG stream driving the small worked key: it makes the
generator draw `h0 = [0, 0, 1]` (the polynomial x^2) and
`h1 = [0, alpha, 0]` (the polynomial alpha*x) at `r = 3`, `w = 1`. -/
def keyStream : Nat → Nat := fun n => List.getD [0, 2, 0, 0, 1, 1, 0, 0] n 0

/-- The small worked key pair (r = 3, w = 1). -/
def smallKey : Res (EncCtx × DecCtx) := generateContexts keyStream 3 1 50 5

/-- The encoding context of the small worked key. -/
def smallEC : EncCtx := ⟨[0, 0, 0, 0, 3], 3⟩

/-- The decoding context of the small worked key. -/
def smallDC : DecCtx := ⟨[0, 0, 1], [0, 2, 0], 3, 1⟩

/-- The score described by the specification for flipping position `j` by `a`
(spec 4.E step 4a): with `k = j` (block 0) or `k = j - r` (block 1) and the
rotated column `h_col(t) = h_block[(i + k) mod r]` under the syndrome's
index convention (`i = r - t` for syndrome entry `t`): the number of indices
where `s - a*h_col` is zero minus the number where `s` is already zero. -/
def specSigma (s hb : List GF4) (r k : Nat) (a : GF4) : Int :=
  let za := ((List.range r).filter
    (fun t => gf4Add (s.getD t 0) (gf4Mul a (hb.getD ((r - t + k) % r) 0)) = 0)).length
  let zb := ((List.range r).filter (fun t => s.getD t 0 = 0)).length
  (za : Int) - (zb : Int)

/-- Canonical form of a stored polynomial (spec 4.C): the zero polynomial
(empty vector or `{0}`), or a vector whose highest-indexed entry is non-zero
(the tracked degree `size - 1` is then exactly that index). -/
def canonical (cs : PolyG) : Prop :=
  cs = [] ∨ cs = [0] ∨ cs.getLast? ≠ some 0

instance (cs : PolyG) : Decidable (canonical cs) := by
  unfold canonical; infer_instance

/-- The input polynomial of the C4 failing input: A = x^6. -/
def hgA : PolyG := [0, 0, 0, 0, 0, 0, 1]

/-- The input polynomial of the C4 failing input: B = x^4 + x. -/
def hgB : PolyG := [0, 1, 0, 0, 1]

-- Sanity examples (concrete evaluations cross-checked against the source).
example : gf4Mul 2 3 = 1 := by decide
example : gf4Add 2 3 = 1 := by decide
example : gf4Div 1 2 = .ok 3 := by decide
example : polyFromCoeffs [0, 2, 0, 0, 2] = [0, 2, 0, 0, 2] := by decide
example : polyFromCoeffs [2] = [0] := by decide
example : polyAdd [1, 1] [1] = .ok [0, 1] := by decide
example : polyMul [0, 2] [0, 0, 3] = .ok [0, 0, 0, 1] := by decide
example : polyDivRem [1, 0, 0, 0, 1] [1, 1] =
    .ok ([1, 1, 1, 1], [0]) := by decide
example : polySetCoeff [0] 0 0 = .ok [] := by decide
example : polySetCoeff [0] 3 1 = .ok [0, 0, 0, 1] := by decide

-- Sanity: spec scenario 2 — p = x^2 + x + 1 is invertible modulo x^8 + 1,
-- and scenario 3 — p = alpha*x + alpha*x^4 is not.
example : polyInvert 50 [1, 1, 1] [1, 0, 0, 0, 0, 0, 0, 0, 1] =
    .ok (some [0, 1, 1, 0, 1, 1, 0, 1]) := by decide
example : polyInvert 50 [0, 2, 0, 0, 2] [1, 0, 0, 0, 0, 0, 0, 0, 1] =
    .ok none := by decide

-- Sanity: the generator run on `keyStream` yields exactly these contexts;
-- note the stored public block [0,0,0,0,3] has length 5, not r = 3.
example : smallKey =
    .ok (⟨[0, 0, 0, 0, 3], 3⟩, ⟨[0, 0, 1], [0, 2, 0], 3, 1⟩) := by decide

-- Sanity: behaviour of the small key, cross-checked against the source.
example : encode smallEC [1, 0, 0] = .ok [1, 0, 0, 0, 0, 0] := by decide
example : calculateSyndrome smallDC [1, 0, 0, 0, 0, 0] = .ok [0, 1, 0] := by decide
example : decode smallDC [1, 0, 0, 0, 0, 0] 0 = .ok none := by decide
example : decode smallDC [1, 0, 0, 0, 0, 0] 2 = .ok (some [0, 0, 0, 2, 0, 0]) := by decide
example : decode smallDC [1, 0, 0, 0, 0, 0] 3 = .ub := by decide
example : decode smallDC [1, 1, 1, 0, 0, 0] 1 = .ub := by decide


/-- C10: a `PolynomialGF2N` with an empty coefficient vector is reachable
through the public interface — `set_coefficient(0, 0)` on the default
polynomial `{0}` takes the leading-zero rescan branch, finds no non-zero
coefficient and assigns `coefficients = {}` — and on that state `is_zero()`
and `is_one()` are both true: the two predicates are not mutually exclusive. -/
theorem emptyPoly_isZero_and_isOne :
    polySetCoeff polyZero 0 0 = .ok [] ∧
    polyIsZero [] = true ∧ polyIsOne [] = true := by decide

/-- C8: `random_weighted_vector_over_GF2N(length, weight)` never throws
`ImpossibleHammingWeight`: for `weight > length` (here length 1, weight 2,
at every PRNG stream and draw counter) the fill loop's write `out[i]` runs
past the end of the vector — undefined behaviour, not the documented
exception. -/
theorem randomWeightedVector_overweight_is_ub :
    ∀ (s : Nat → Nat) (n : Nat), randomWeightedVector s 1 2 n = .ub := by
  intro s n
  rfl

/-- C4: `half_gcd` does not satisfy its postcondition.  On A = x^6,
B = x^4 + x (deg A = 6 ≥ deg B = 4) it terminates and returns the step
matrix M = ((x^2, 1), (1, 0)), but because `adjugate()` returns
`{a11, a01, a10, a11}` — duplicating `a11` where the adjugate needs `a00` —
applying it to (A, B) merely swaps the pair: the "reduced" remainder is
B' = A itself, of degree 6, not below ⌈(deg A + 1)/2⌉ = 4 (nor below the
recursion's own threshold m = 3). -/
theorem halfGcd_postcondition_fails :
    halfGcd 20 hgA hgB = .ok ([[0, 0, 1]], ⟨[0, 0, 1], [1], [1], [0]⟩) ∧
    tmTransform (tmAdjugate ⟨[0, 0, 1], [1], [1], [0]⟩) hgA hgB = .ok (hgB, hgA) ∧
    szdeg hgA = 6 ∧ ¬(szdeg hgA < (szdeg hgA + 2) / 2) := by decide

/-- C5: the inverter's contract fails.  p = x^3 is invertible modulo
m = x^4 + 1 (its inverse is x: x^3 * x mod (x^4 + 1) = 1), so `invert` ought
to return that inverse or at worst "no value"; instead the run enters
`full_gcd`'s half-GCD branch (2*deg b > deg a) and, after the corrupted
`adjugate` transform, `div_x_to_deg` erases past the end of the coefficient
vector (`k = 2m - deg B` exceeds the vector size): undefined behaviour —
neither a returned polynomial nor the "no inverse" result. -/
theorem invert_crashes_on_invertible_input :
    polyInvert 100 [0, 0, 0, 1] [1, 0, 0, 0, 1] = .ub ∧
    polyMul [0, 0, 0, 1] [0, 1] = .ok [0, 0, 0, 0, 1] ∧
    polyMod [0, 0, 0, 0, 1] [1, 0, 0, 0, 1] = .ok [1] := by decide

/-- C6: the public block stored by `generate_contexts_over_GF2N` is NOT the
reduced ring element -(h0 * h1^{-1}) mod (x^r - 1).  On the key drawn by
`keyStream` at r = 3, w = 1 (h0 = x^2, h1 = alpha*x, h1^{-1} = (alpha+1)*x^2):
the generator stores the unreduced product 0 - h0*h1^{-1} = (alpha+1)*x^4 as
the coefficient vector [0,0,0,0,3] of length 5, while the reduced element is
(alpha+1)*x, the length-r vector being [0,3] padded to [0,3,0]; the source
skips the `% modulus` reduction (present in the sibling
`generate_contexts`). -/
theorem publicBlock_not_reduced :
    generateContexts keyStream 3 1 50 5 = .ok (smallEC, smallDC) ∧
    genModulus 3 = .ok [1, 0, 0, 1] ∧
    polyInvert 50 (polyFromCoeffs [0, 2, 0]) [1, 0, 0, 1] = .ok (some [0, 0, 3]) ∧
    polyMul (polyFromCoeffs [0, 0, 1]) [0, 0, 3] = .ok [0, 0, 0, 0, 3] ∧
    polyMod [0, 0, 0, 0, 3] [1, 0, 0, 1] = .ok [0, 3] ∧
    smallEC.secondBlockG = [0, 0, 0, 0, 3] ∧
    smallEC.secondBlockG.length ≠ 3 ∧
    smallEC.secondBlockG ≠ [0, 3] := by decide

/-- C9: an iteration of `decode` need not find any candidate whose score
exceeds the sentinel `2r + 1`.  Decoding y = (1,1,1,0,0,0) with the small
worked key gives the all-non-zero syndrome (1,1,1); in the first iteration
every candidate score is at most 1, so no assignment to `pos` happens, the
selection scan ends with `pos = 2r + 1 = 7`, and the write
`error_vector[pos]` is out of bounds: undefined behaviour. -/
theorem decode_scan_can_keep_sentinel_pos :
    calculateSyndrome smallDC [1, 1, 1, 0, 0, 0] = .ok [1, 1, 1] ∧
    (decodeScan 3 (hammingWeight [1, 1, 1]) [1, 1, 1] smallDC.h0 smallDC.h1).2.2
      = 2 * 3 + 1 ∧
    ¬((decodeScan 3 (hammingWeight [1, 1, 1]) [1, 1, 1] smallDC.h0 smallDC.h1).2.2
      < 2 * 3) ∧
    decode smallDC [1, 1, 1, 0, 0, 0] 1 = .ub := by decide

/-- C2: the score the decoder computes is not the specified one.  In the
first iteration of decoding y = (0,0,1,0,0,0) with the small worked key the
syndrome is s = (1,0,0) and `syndrome_weight` is its Hamming weight 1.  For
position j = 1 (block h0, k = 1) and a = 1 the decoder computes
`sigma = syndrome_weight - w` on the UNROTATED row `h_block[i]` in wrapping
`size_t` arithmetic, giving 0; the specified score — zeros of
`s - a*h_col` minus zeros of `s` with the rotated column
`h_col(i) = h_block[(i+k) mod r]` — is -1. -/
theorem decoder_sigma_differs_from_spec :
    calculateSyndrome smallDC [0, 0, 1, 0, 0, 0] = .ok [1, 0, 0] ∧
    hammingWeight [1, 0, 0] = 1 ∧
    sigmaOf 1 [1, 0, 0] smallDC.h0 1 = 0 ∧
    specSigma [1, 0, 0] smallDC.h0 3 1 1 = -1 ∧
    ¬((sigmaOf 1 [1, 0, 0] smallDC.h0 1 : Int) = specSigma [1, 0, 0] smallDC.h0 3 1 1) := by
  decide

/-- `Res.bind` on a success. -/
theorem resBindOk {α β : Type} (a : α) (f : α → Res β) :
    Res.bind (.ok a) f = f a := rfl

/-- `Res.bind` propagates undefined behaviour. -/
theorem resBindUb {α β : Type} (f : α → Res β) :
    Res.bind (.ub : Res α) f = .ub := rfl

/-- C1: decoding an honestly encoded message does not return the zero error
vector — for ANY iteration budget.  With the validly generated small key
(r = 3, w = 1, h0 = x^2, h1 = alpha*x invertible modulo x^3 - 1, drawn by
`generateContexts` on `keyStream`), the codeword of m = (1,0,0) has the
non-zero syndrome (0,1,0), because the stored public block is the unreduced
product (C6): so `decode` never takes its zero-syndrome early return.  The
iterations then return failure (K ≤ 1), a non-zero "error" vector (K = 2), or
run into the out-of-bounds `error_vector[2r+1]` write (every K ≥ 3). -/
theorem decode_of_encode_never_zero_vector :
    generateContexts keyStream 3 1 50 5 = .ok (smallEC, smallDC) ∧
    encode smallEC [1, 0, 0] = .ok [1, 0, 0, 0, 0, 0] ∧
    calculateSyndrome smallDC [1, 0, 0, 0, 0, 0] = .ok [0, 1, 0] ∧
    isVectorZero [0, 1, 0] = false ∧
    ∀ K : Nat, decode smallDC [1, 0, 0, 0, 0, 0] K ≠ .ok (some (List.replicate 6 0)) := by
  refine ⟨by decide, by decide, by decide, by decide, ?_⟩
  intro K
  match K with
  | 0 => decide
  | 1 => decide
  | 2 => decide
  | (k + 3) =>
    have e1 : decodeIter smallDC ([0, 1, 0], 1, List.replicate 6 0) =
        .ok ([0, 3, 0], 2, [0, 0, 0, 1, 0, 0]) := by decide
    have e2 : decodeIter smallDC ([0, 3, 0], 2, [0, 0, 0, 1, 0, 0]) =
        .ok ([0, 0, 0], 3, [0, 0, 0, 2, 0, 0]) := by decide
    have e3 : decodeIter smallDC ([0, 0, 0], 3, [0, 0, 0, 2, 0, 0]) = .ub := by decide
    have hloop : decodeLoop smallDC (k + 3) ([0, 1, 0], 1, List.replicate 6 0) = .ub := by
      have u1 : ∀ (st : List GF4 × Nat × List GF4) (k2 : Nat),
          decodeLoop smallDC (k2 + 1) st =
          Res.bind (decodeIter smallDC st) (fun s => decodeLoop smallDC k2 s) :=
        fun st k2 => rfl
      rw [u1, e1, resBindOk, u1, e2, resBindOk, u1, e3, resBindUb]
    have hdec : decode smallDC [1, 0, 0, 0, 0, 0] (k + 3) =
        Res.bind (decodeLoop smallDC (k + 3) ([0, 1, 0], 1, List.replicate 6 0))
          (fun st => if isVectorZero st.1 then Res.ok (some st.2.2) else Res.ok none) := rfl
    rw [hdec, hloop, resBindUb]
    intro h
    exact Res.noConfusion h

/-- The seed is a lower bound of a running-max fold. -/
theorem le_foldl_max {β : Type} (score : β → Nat) :
    ∀ (l : List β) (seed : Nat), seed ≤ l.foldl (fun m d => max m (score d)) seed := by
  intro l
  induction l with
  | nil => intro seed; simp
  | cons c cs ih =>
    intro seed
    calc seed ≤ max seed (score c) := Nat.le_max_left _ _
    _ ≤ cs.foldl (fun m d => max m (score d)) (max seed (score c)) := ih _

/-- Unfolding of `find?` on a cons cell. -/
theorem find?_cons_eq {α : Type} (p : α → Bool) (a : α) (l : List α) :
    (a :: l).find? p = cond (p a) (some a) (l.find? p) := rfl

/-- `find?` only depends on the predicate's values on the list. -/
theorem find?_congrOn {α : Type} (p q : α → Bool) :
    ∀ (l : List α), (∀ x ∈ l, p x = q x) → l.find? p = l.find? q := by
  intro l
  induction l with
  | nil => intro _; rfl
  | cons c cs ih =>
    intro h
    have hc : p c = q c := h c (List.mem_cons_self c cs)
    rw [find?_cons_eq, find?_cons_eq, hc,
      ih (fun x hx => h x (List.mem_cons_of_mem c hx))]

/-- A running-max fold either keeps its seed or attains the score of some
list element. -/
theorem foldl_max_attains {β : Type} (score : β → Nat) :
    ∀ (l : List β) (seed : Nat),
    l.foldl (fun m d => max m (score d)) seed = seed ∨
    ∃ x ∈ l, l.foldl (fun m d => max m (score d)) seed = score x := by
  intro l
  induction l with
  | nil => intro seed; exact Or.inl rfl
  | cons c cs ih =>
    intro seed
    simp only [List.foldl_cons]
    rcases ih (max seed (score c)) with h1 | ⟨x, hx, h2⟩
    · rcases Nat.le_total seed (score c) with hle | hle
      · exact Or.inr ⟨c, List.mem_cons_self c cs, by rw [h1, Nat.max_eq_right hle]⟩
      · exact Or.inl (by rw [h1, Nat.max_eq_left hle])
    · exact Or.inr ⟨x, List.mem_cons_of_mem c hx, h2⟩

/-- Characterization of the strict-`>` selection fold: it returns the
EARLIEST-scanned candidate attaining the running maximum, provided that
maximum strictly exceeds the initial (sentinel) value; otherwise it returns
the initial state unchanged. -/
theorem selFold_earliest_max (score : Nat × GF4 → Nat) :
    ∀ (cands : List (Nat × GF4)) (init : Nat × GF4 × Nat),
    cands.foldl (selStep score) init =
      (cands.find? (fun c => decide (score c > init.1 ∧
          score c = cands.foldl (fun m d => max m (score d)) init.1))).elim
        init (fun c => (score c, c.2, c.1)) := by
  intro cands
  induction cands with
  | nil => intro init; rfl
  | cons c cs ih =>
    intro init
    simp only [List.foldl_cons, find?_cons_eq]
    by_cases h : score c > init.1
    · have hsel : selStep score init c = (score c, c.2, c.1) := by
        simp [selStep, h]
      rw [hsel]
      have hmax : max init.1 (score c) = score c := Nat.max_eq_right (Nat.le_of_lt h)
      simp only [hmax]
      have hge : score c ≤ cs.foldl (fun m d => max m (score d)) (score c) :=
        le_foldl_max score cs (score c)
      rcases eq_or_lt_of_le hge with heq | hlt
      · have hhead : decide (score c > init.1 ∧
            score c = cs.foldl (fun m d => max m (score d)) (score c)) = true := by
          simp only [decide_eq_true_eq]
          exact ⟨h, heq⟩
        simp only [hhead, cond_true]
        rw [ih (score c, c.2, c.1)]
        have hnone : cs.find? (fun d => decide (score d > (score c, c.2, c.1).1 ∧
            score d = cs.foldl (fun m e => max m (score e)) (score c, c.2, c.1).1)) = none := by
          rw [List.find?_eq_none]
          intro d _
          simp only [decide_eq_true_eq]
          intro hcontra
          rw [← heq] at hcontra
          exact absurd hcontra.2 (Nat.ne_of_gt hcontra.1)
        rw [hnone]
        rfl
      · have hhead : decide (score c > init.1 ∧
            score c = cs.foldl (fun m d => max m (score d)) (score c)) = false := by
          simp only [decide_eq_false_iff_not]
          intro hcontra
          exact absurd hcontra.2 (Nat.ne_of_lt hlt)
        simp only [hhead, cond_false]
        rw [ih (score c, c.2, c.1)]
        have hcong : cs.find? (fun d => decide (score d > (score c, c.2, c.1).1 ∧
            score d = cs.foldl (fun m e => max m (score e)) (score c, c.2, c.1).1)) =
            cs.find? (fun d => decide (score d > init.1 ∧
            score d = cs.foldl (fun m e => max m (score e)) (score c))) := by
          apply find?_congrOn
          intro d _
          simp only [decide_eq_decide]
          constructor
          · intro hd
            exact ⟨Nat.lt_trans h hd.1, hd.2⟩
          · intro hd
            refine ⟨?_, hd.2⟩
            rcases Nat.lt_or_ge (score c) (score d) with hlt2 | hle2
            · exact hlt2
            · exfalso
              rw [hd.2] at hle2
              exact absurd hle2 (Nat.not_le_of_lt hlt)
        rw [hcong]
        rcases foldl_max_attains score cs (score c) with hat | ⟨x, hx, hat⟩
        · exact absurd hat (Nat.ne_of_gt hlt)
        · cases hfind : cs.find? (fun d => decide (score d > init.1 ∧
              score d = cs.foldl (fun m e => max m (score e)) (score c))) with
          | none =>
            exfalso
            have h2 := List.find?_eq_none.mp hfind x hx
            simp only [decide_eq_true_eq, not_and] at h2
            exact h2 (hat ▸ Nat.lt_trans h hlt) hat.symm
          | some e => rfl
    · have hsel : selStep score init c = init := by
        simp [selStep, h]
      rw [hsel]
      have hmax : max init.1 (score c) = init.1 :=
        Nat.max_eq_left (Nat.le_of_not_lt h)
      simp only [hmax]
      have hhead : decide (score c > init.1 ∧
          score c = cs.foldl (fun m d => max m (score d)) init.1) = false := by
        simp only [decide_eq_false_iff_not]
        intro hcontra
        exact absurd hcontra.1 h
      simp only [hhead, cond_false]
      exact ih init

/-- C3 (amended): in every decode iteration, the selection scan picks the
EARLIEST-scanned candidate pair attaining the maximal computed score, and
only when that maximum strictly exceeds the sentinel `2r + 1`; when no
candidate's score exceeds the sentinel, nothing is selected and the state
keeps `sigma_max = pos = 2r + 1`, `a_max = 0`. -/
theorem decodeScan_selects_earliest_max (r sw : Nat) (s h0 h1 : List GF4) :
    decodeScan r sw s h0 h1 =
      ((decodeCands r).find? (fun c =>
          decide (sigmaOf sw s (if c.1 < r then h0 else h1) c.2 > 2 * r + 1 ∧
            sigmaOf sw s (if c.1 < r then h0 else h1) c.2 =
              (decodeCands r).foldl (fun m d =>
                max m (sigmaOf sw s (if d.1 < r then h0 else h1) d.2))
                (2 * r + 1)))).elim
        (2 * r + 1, 0, 2 * r + 1)
        (fun c => (sigmaOf sw s (if c.1 < r then h0 else h1) c.2, c.2, c.1)) :=
  selFold_earliest_max
    (fun c => sigmaOf sw s (if c.1 < r then h0 else h1) c.2)
    (decodeCands r) (2 * r + 1, 0, 2 * r + 1)

/-- C3 (counterexample): ties are NOT broken in favour of later-scanned
candidates, and the wrapping `size_t` score is what is maximised.  In the
first iteration of decoding the codeword (1,0,0,0,0,0) under the small
worked key (syndrome (0,1,0), `syndrome_weight` 1), the score of every
candidate `(j, a = 1)` with `j` in the h1 block wraps to `2^64 - 1`; the scan
selects the earliest such pair `(j*, a*) = (3, 1)`, although the
later-scanned candidate `(5, 1)` attains exactly the same score. -/
theorem decodeScan_tie_goes_to_earliest :
    calculateSyndrome smallDC [1, 0, 0, 0, 0, 0] = .ok [0, 1, 0] ∧
    hammingWeight [0, 1, 0] = 1 ∧
    decodeScan 3 1 [0, 1, 0] smallDC.h0 smallDC.h1 = (SZ - 1, 1, 3) ∧
    (5, (1 : GF4)) ∈ decodeCands 3 ∧
    sigmaOf 1 [0, 1, 0] smallDC.h1 1 = SZ - 1 ∧
    (decodeScan 3 1 [0, 1, 0] smallDC.h0 smallDC.h1).2.2 ≠ 5 := by decide

/-- Adding the zero field element is the identity. -/
theorem gf4Add_zero_right : ∀ x : GF4, gf4Add x 0 = x := by decide

/-- GF(4) is an integral domain: a product of non-zero elements is non-zero. -/
theorem gf4Mul_ne_zero : ∀ x y : GF4, x ≠ 0 → y ≠ 0 → gf4Mul x y ≠ 0 := by decide

/-- A successful division of a non-zero element yields a non-zero element. -/
theorem gf4Div_ok_ne_zero : ∀ x y z : GF4, x ≠ 0 → gf4Div x y = .ok z → z ≠ 0 := by
  decide

/-- The head of a `dropWhile` result fails the predicate. -/
theorem dropWhile_head_not {α : Type} (p : α → Bool) :
    ∀ (l : List α) (x : α) (rest : List α), l.dropWhile p = x :: rest → p x = false := by
  intro l
  induction l with
  | nil => intro x rest h; exact absurd h (by simp)
  | cons c cs ih =>
    intro x rest h
    by_cases hc : p c = true
    · rw [List.dropWhile_cons_of_pos hc] at h
      exact ih x rest h
    · rw [List.dropWhile_cons_of_neg hc] at h
      cases h
      exact Bool.eq_false_iff.mpr hc

/-- The trailing-zero trim always produces a canonical vector. -/
theorem canonical_trimTrailing (cs : PolyG) : canonical (trimTrailing cs) := by
  unfold trimTrailing
  cases hd : cs.reverse.dropWhile (fun c => c == 0) with
  | nil =>
    simp only [hd, List.reverse_nil, List.isEmpty_nil, if_true]
    cases cs with
    | nil => exact Or.inl rfl
    | cons c cs2 =>
      have hall := List.dropWhile_eq_nil_iff.mp hd
      have hc : c = 0 := by
        have := hall c (by simp)
        simpa using this
      subst hc
      exact Or.inr (Or.inl (by simp))
  | cons x d2 =>
    have hne : ((x :: d2).reverse).isEmpty = false := by simp
    simp only [hd, hne, Bool.false_eq_true, if_false]
    refine Or.inr (Or.inr ?_)
    rw [List.getLast?_reverse]
    have hx : (x == 0) = false := dropWhile_head_not _ cs.reverse x d2 hd
    simp only [List.head?_cons]
    intro hcontra
    rw [Option.some.injEq] at hcontra
    subst hcontra
    simp at hx

/-- The last entry of a non-empty vector, as `getD` at `size - 1`. -/
theorem getLast?_eq_getD_last (cs : PolyG) (h : cs ≠ []) :
    cs.getLast? = some (cs.getD (cs.length - 1) 0) := by
  have hlt : cs.length - 1 < cs.length := by
    cases cs with
    | nil => exact absurd rfl h
    | cons a t => simp
  rw [List.getLast?_eq_getElem?, List.getD_eq_getElem?_getD, List.getElem?_eq_getElem hlt]
  rfl

/-- The last stored coefficient of a canonical non-zero vector is non-zero. -/
theorem canonical_last_ne_zero (cs : PolyG) (hc : canonical cs) (h0 : cs ≠ [])
    (h1 : cs ≠ [0]) : cs.getD (cs.length - 1) 0 ≠ 0 := by
  rcases hc with h | h | h
  · exact absurd h h0
  · exact absurd h h1
  · rw [getLast?_eq_getD_last cs h0] at h
    intro hz
    exact h (by rw [hz])

/-- A non-empty vector with non-zero last entry is canonical. -/
theorem canonical_of_last_ne_zero (cs : PolyG) (h0 : cs ≠ [])
    (h : cs.getD (cs.length - 1) 0 ≠ 0) : canonical cs := by
  refine Or.inr (Or.inr ?_)
  rw [getLast?_eq_getD_last cs h0]
  intro hcontra
  rw [Option.some.injEq] at hcontra
  exact h hcontra

/-- C7 component: the coefficient-vector constructor canonicalises. -/
theorem polyFromCoeffs_canonical (cs : List GF4) : canonical (polyFromCoeffs cs) := by
  unfold polyFromCoeffs
  by_cases h : (trimTrailing cs).length ≤ 1
  · simp only [h, if_true]
    exact Or.inr (Or.inl rfl)
  · simp only [h, if_false]
    exact canonical_trimTrailing cs

/-- C7 component: scalar multiplication canonicalises. -/
theorem polyScalarMul_canonical (a : PolyG) (s : GF4) (out : PolyG)
    (h : polyScalarMul a s = .ok out) : canonical out := by
  unfold polyScalarMul at h
  by_cases he : a.isEmpty
  · simp [he] at h
  · simp only [he, Bool.false_eq_true, if_false, Res.ok.injEq] at h
    subst h
    exact canonical_trimTrailing _

/-- C7 component: `set_coefficient` preserves canonical form (its only
non-canonical-friendly branch, writing zero past the degree, is out of
bounds and yields no result). -/
theorem polySetCoeff_canonical (cs : PolyG) (d : Nat) (v : GF4) (out : PolyG)
    (hc : canonical cs) (h : polySetCoeff cs d v = .ok out) : canonical out := by
  unfold polySetCoeff at h
  by_cases he : cs.isEmpty = true
  · rw [if_pos he] at h
    exact absurd h (by intro hx; cases hx)
  · rw [if_neg he] at h
    have hne : cs ≠ [] := by
      intro hnil
      rw [hnil] at he
      exact he rfl
    have hlen1 : cs.length ≥ 1 := List.length_pos.mpr hne
    by_cases h1 : d > degN cs ∧ v ≠ 0
    · rw [if_pos h1] at h
      cases h
      have hL : (cs ++ List.replicate (d + 1 - cs.length) 0).length = d + 1 := by
        simp only [List.length_append, List.length_replicate]
        unfold degN at h1
        omega
      apply canonical_of_last_ne_zero
      · intro hnil
        have := congrArg List.length hnil
        rw [List.length_set, hL] at this
        simp at this
      · rw [List.length_set, hL]
        simp only [Nat.add_sub_cancel]
        rw [List.getD_eq_getElem?_getD, List.getElem?_set_self (by rw [hL]; omega)]
        exact h1.2
    · rw [if_neg h1] at h
      by_cases h2 : d = degN cs ∧ v = 0
      · rw [if_pos h2] at h
        by_cases h3 : (trimTrailing (cs.set d v)).length ≤ 1
        · rw [if_pos h3] at h
          cases h
          exact Or.inl rfl
        · rw [if_neg h3] at h
          cases h
          exact canonical_trimTrailing _
      · rw [if_neg h2] at h
        unfold vecSet at h
        by_cases h4 : d < cs.length
        · rw [if_pos h4] at h
          cases h
          have hdeg : d ≤ degN cs := by unfold degN; omega
          rcases Nat.lt_or_ge d (degN cs) with hlt | hge
          · apply canonical_of_last_ne_zero
            · intro hnil
              have hl0 := congrArg List.length hnil
              rw [List.length_set] at hl0
              exact hne (List.length_eq_zero.mp hl0)
            · rw [List.length_set, List.getD_eq_getElem?_getD,
                List.getElem?_set_ne (by unfold degN at hlt; omega)]
              rw [← List.getD_eq_getElem?_getD]
              apply canonical_last_ne_zero cs hc hne
              intro h01
              rw [h01] at hlt
              simp [degN] at hlt
          · have hde : d = degN cs := Nat.le_antisymm hdeg hge
            have hv : v ≠ 0 := by
              intro hv0
              exact h2 ⟨hde, hv0⟩
            apply canonical_of_last_ne_zero
            · intro hnil
              have hl0 := congrArg List.length hnil
              rw [List.length_set] at hl0
              exact hne (List.length_eq_zero.mp hl0)
            · rw [List.length_set, List.getD_eq_getElem?_getD]
              rw [hde]
              unfold degN
              rw [List.getElem?_set_self (by omega)]
              exact hv
        · rw [if_neg h4] at h
          exact absurd h (by intro hx; cases hx)

/-- C7 component (also the key receiver lemma for `div_rem`): `operator+`
on a canonical left operand yields a canonical result, whatever the right
operand is.  The longer-receiver branch keeps the untouched non-zero leading
coefficient; the other branch rescans and trims. -/
theorem polyAdd_canonical (a b out : PolyG) (hc : canonical a)
    (h : polyAdd a b = .ok out) : canonical out := by
  unfold polyAdd at h
  by_cases he : a.isEmpty = true ∨ b.isEmpty = true
  · rw [if_pos he] at h
    exact absurd h (by intro hx; cases hx)
  · rw [if_neg he] at h
    have hna : a ≠ [] := by
      intro hx
      exact he (Or.inl (by rw [hx]; rfl))
    have hnb : b ≠ [] := by
      intro hx
      exact he (Or.inr (by rw [hx]; rfl))
    have hlb : b.length ≥ 1 := List.length_pos.mpr hnb
    by_cases hgt : a.length > b.length
    · rw [if_pos hgt] at h
      cases h
      have hla : a.length ≥ 2 := by omega
      apply canonical_of_last_ne_zero
      · intro hnil
        have hl0 := congrArg List.length hnil
        simp only [List.length_map, List.length_range, List.length_nil] at hl0
        omega
      · have hlen : ((List.range a.length).map (fun i =>
            gf4Add (a.getD i 0) (polyGet b i))).length = a.length := by
          simp
        rw [hlen, List.getD_eq_getElem?_getD,
          List.getElem?_eq_getElem (by simp; omega)]
        simp only [List.getElem_map, List.getElem_range, Option.getD_some]
        have hbz : polyGet b (a.length - 1) = 0 := by
          unfold polyGet degN
          rw [if_pos (by omega)]
        rw [hbz, gf4Add_zero_right]
        apply canonical_last_ne_zero a hc hna
        intro h01
        rw [h01] at hla
        simp at hla
    · rw [if_neg hgt] at h
      cases h
      exact canonical_trimTrailing _

/-- Adding zero on the left is the identity. -/
theorem gf4Add_zero_left : ∀ x : GF4, gf4Add 0 x = x := by decide

/-- Multiplying by zero on the left gives zero. -/
theorem gf4Mul_zero_left : ∀ x : GF4, gf4Mul 0 x = 0 := by decide

/-- Multiplying by zero on the right gives zero. -/
theorem gf4Mul_zero_right : ∀ x : GF4, gf4Mul x 0 = 0 := by decide

/-- The multiplication loop never changes the length of the accumulator. -/
theorem mulFold_length (a b : PolyG) :
    ∀ (ps : List (Nat × Nat)) (st : List GF4 × Nat),
    ((ps.foldl (mulStep a b) st).1).length = st.1.length := by
  intro ps
  induction ps with
  | nil => intro st; rfl
  | cons p ps2 ih =>
    intro st
    rw [List.foldl_cons, ih]
    simp [mulStep]

/-- Cells not named by any processed pair keep their value. -/
theorem mulFold_avoid (a b : PolyG) :
    ∀ (ps : List (Nat × Nat)) (st : List GF4 × Nat) (t : Nat),
    (∀ p ∈ ps, p.1 + p.2 ≠ t) →
    ((ps.foldl (mulStep a b) st).1).getD t 0 = st.1.getD t 0 := by
  intro ps
  induction ps with
  | nil => intro st t _; rfl
  | cons p ps2 ih =>
    intro st t hp
    rw [List.foldl_cons, ih _ _ (fun q hq => hp q (List.mem_cons_of_mem p hq))]
    simp only [mulStep]
    rw [List.getD_eq_getElem?_getD,
      List.getElem?_set_ne (hp p (List.mem_cons_self p ps2)),
      ← List.getD_eq_getElem?_getD]

/-- The tracked degree stays below a bound that dominates every pair sum. -/
theorem mulFold_deg_lt (a b : PolyG) :
    ∀ (ps : List (Nat × Nat)) (st : List GF4 × Nat) (N : Nat),
    st.2 < N → (∀ p ∈ ps, p.1 + p.2 < N) →
    (ps.foldl (mulStep a b) st).2 < N := by
  intro ps
  induction ps with
  | nil => intro st N h _; exact h
  | cons p ps2 ih =>
    intro st N h hp
    rw [List.foldl_cons]
    apply ih _ _ (by
      simp only [mulStep]
      by_cases hc : gf4Add (st.1.getD (p.1 + p.2) 0)
          (gf4Mul (a.getD p.1 0) (b.getD p.2 0)) ≠ 0 ∧ p.1 + p.2 > st.2
      · rw [if_pos hc]
        exact hp p (List.mem_cons_self p ps2)
      · rw [if_neg hc]
        exact h)
    exact fun q hq => hp q (List.mem_cons_of_mem p hq)

/-- When every touched product vanishes, the loop is the identity on the
all-zero accumulator. -/
theorem mulFold_zero (a b : PolyG) (n : Nat) :
    ∀ (ps : List (Nat × Nat)),
    (∀ p ∈ ps, gf4Mul (a.getD p.1 0) (b.getD p.2 0) = 0) →
    ps.foldl (mulStep a b) (List.replicate n 0, 0) = (List.replicate n 0, 0) := by
  intro ps
  induction ps with
  | nil => intro _; rfl
  | cons p ps2 ih =>
    intro hp
    rw [List.foldl_cons]
    have hz : (List.replicate n (0 : GF4)).getD (p.1 + p.2) 0 = 0 := by
      rw [List.getD_eq_getElem?_getD, List.getElem?_replicate]
      by_cases hlt : p.1 + p.2 < n
      · rw [if_pos hlt]; rfl
      · rw [if_neg hlt]; rfl
    have hstep : mulStep a b (List.replicate n 0, 0) p = (List.replicate n 0, 0) := by
      simp only [mulStep, hp p (List.mem_cons_self p ps2), hz, gf4Add_zero_left]
      simp
    rw [hstep]
    exact ih (fun q hq => hp q (List.mem_cons_of_mem p hq))

/-- The pair enumeration splits off its final pair `(da, db)`; every earlier
pair has a strictly smaller index sum, and all pairs are within bounds. -/
theorem mulPairs_decomp (da db : Nat) :
    ∃ A, mulPairs da db = A ++ [(da, db)] ∧
      (∀ p ∈ A, p.1 + p.2 < da + db) ∧
      (∀ p ∈ mulPairs da db, p.1 ≤ da ∧ p.2 ≤ db) := by
  refine ⟨(List.range da).flatMap (fun i => (List.range (db + 1)).map (fun j => (i, j)))
      ++ (List.range db).map (fun j => (da, j)), ?_, ?_, ?_⟩
  · unfold mulPairs
    rw [List.range_succ, List.flatMap_append]
    have h2 : ([da].flatMap (fun i => (List.range (db + 1)).map (fun j => (i, j)))) =
        (List.range db).map (fun j => (da, j)) ++ [(da, db)] := by
      simp only [List.flatMap_cons, List.flatMap_nil, List.append_nil]
      rw [List.range_succ, List.map_append]
      rfl
    rw [h2, List.append_assoc]
  · intro p hp
    rcases List.mem_append.mp hp with h1 | h1
    · rcases List.mem_flatMap.mp h1 with ⟨i, hi, hpi⟩
      rcases List.mem_map.mp hpi with ⟨j, hj, hpj⟩
      subst hpj
      have : i < da := List.mem_range.mp hi
      have : j < db + 1 := List.mem_range.mp hj
      omega
    · rcases List.mem_map.mp h1 with ⟨j, hj, hpj⟩
      subst hpj
      have : j < db := List.mem_range.mp hj
      omega
  · intro p hp
    unfold mulPairs at hp
    rcases List.mem_flatMap.mp hp with ⟨i, hi, hpi⟩
    rcases List.mem_map.mp hpi with ⟨j, hj, hpj⟩
    subst hpj
    have : i < da + 1 := List.mem_range.mp hi
    have : j < db + 1 := List.mem_range.mp hj
    omega

/-- C7 component: `operator*` yields canonical results on canonical inputs:
the final loop step accumulates the product of the two non-zero leading
coefficients into the previously untouched top cell and records the full
degree, so the trailing truncation keeps a non-zero leading coefficient
(or the all-zero accumulator collapses to `{0}`). -/
theorem polyMul_canonical (a b out : PolyG) (ha : canonical a) (hb : canonical b)
    (h : polyMul a b = .ok out) : canonical out := by
  unfold polyMul at h
  by_cases he : a.isEmpty = true ∨ b.isEmpty = true
  · rw [if_pos he] at h
    exact absurd h (by intro hx; cases hx)
  · rw [if_neg he] at h
    rw [Res.ok.injEq] at h
    subst h
    have hna : a ≠ [] := by
      intro hx; exact he (Or.inl (by rw [hx]; rfl))
    have hnb : b ≠ [] := by
      intro hx; exact he (Or.inr (by rw [hx]; rfl))
    have hla : a.length ≥ 1 := List.length_pos.mpr hna
    have hlb : b.length ≥ 1 := List.length_pos.mpr hnb
    obtain ⟨A, hA, hAlt, hbound⟩ := mulPairs_decomp (a.length - 1) (b.length - 1)
    by_cases hza : a = [0]
    · have hall : ∀ p ∈ mulPairs (a.length - 1) (b.length - 1),
          gf4Mul (a.getD p.1 0) (b.getD p.2 0) = 0 := by
        intro p hp
        have h1 := (hbound p hp).1
        rw [hza] at h1 ⊢
        simp at h1
        rw [h1]
        exact gf4Mul_zero_left _
      rw [mulFold_zero a b _ _ hall]
      rw [List.take_replicate]
      have : min (0 + 1) (a.length - 1 + (b.length - 1) + 1) = 1 := by omega
      rw [this]
      exact Or.inr (Or.inl rfl)
    · by_cases hzb : b = [0]
      · have hall : ∀ p ∈ mulPairs (a.length - 1) (b.length - 1),
            gf4Mul (a.getD p.1 0) (b.getD p.2 0) = 0 := by
          intro p hp
          have h2 := (hbound p hp).2
          rw [hzb] at h2 ⊢
          simp at h2
          rw [h2]
          exact gf4Mul_zero_right _
        rw [mulFold_zero a b _ _ hall]
        rw [List.take_replicate]
        have : min (0 + 1) (a.length - 1 + (b.length - 1) + 1) = 1 := by omega
        rw [this]
        exact Or.inr (Or.inl rfl)
      · have haL : a.getD (a.length - 1) 0 ≠ 0 := canonical_last_ne_zero a ha hna hza
        have hbL : b.getD (b.length - 1) 0 ≠ 0 := canonical_last_ne_zero b hb hnb hzb
        rw [hA, List.foldl_append, List.foldl_cons, List.foldl_nil]
        set st1 := A.foldl (mulStep a b)
          (List.replicate (a.length - 1 + (b.length - 1) + 1) 0, 0) with hst1
        have hlen1 : st1.1.length = a.length - 1 + (b.length - 1) + 1 := by
          rw [hst1, mulFold_length]
          simp
        have htop0 : st1.1.getD (a.length - 1 + (b.length - 1)) 0 = 0 := by
          rw [hst1, mulFold_avoid a b A _ _
            (fun p hp => Nat.ne_of_lt (hAlt p hp))]
          rw [List.getD_eq_getElem?_getD, List.getElem?_replicate,
            if_pos (by omega)]
          rfl
        have hc : gf4Add (st1.1.getD (a.length - 1 + (b.length - 1)) 0)
            (gf4Mul (a.getD (a.length - 1) 0) (b.getD (b.length - 1) 0)) ≠ 0 := by
          rw [htop0, gf4Add_zero_left]
          exact gf4Mul_ne_zero _ _ haL hbL
        simp only [mulStep]
        set c := gf4Add (st1.1.getD (a.length - 1 + (b.length - 1)) 0)
          (gf4Mul (a.getD (a.length - 1) 0) (b.getD (b.length - 1) 0)) with hcdef
        have hdeg : (if c ≠ 0 ∧ a.length - 1 + (b.length - 1) > st1.2
            then a.length - 1 + (b.length - 1) else st1.2) =
            a.length - 1 + (b.length - 1) := by
          by_cases htop : a.length - 1 + (b.length - 1) = 0
          · rw [htop]
            have hAnil : A = [] := by
              cases hAe : A with
              | nil => rfl
              | cons q qs =>
                have := hAlt q (by rw [hAe]; exact List.mem_cons_self q qs)
                omega
            have hst10 : st1.2 = 0 := by rw [hst1, hAnil]; rfl
            rw [hst10]
            simp
          · have hlt := mulFold_deg_lt a b A
              (List.replicate (a.length - 1 + (b.length - 1) + 1) 0, 0)
              (a.length - 1 + (b.length - 1)) (by simp; omega) hAlt
            rw [← hst1] at hlt
            rw [if_pos ⟨hc, hlt⟩]
        rw [hdeg]
        apply canonical_of_last_ne_zero
        · intro hnil
          have hl0 := congrArg List.length hnil
          rw [List.length_take, List.length_set, hlen1] at hl0
          simp at hl0
        · rw [List.length_take, List.length_set, hlen1]
          have hmin : min (a.length - 1 + (b.length - 1) + 1)
              (a.length - 1 + (b.length - 1) + 1) = a.length - 1 + (b.length - 1) + 1 := by
            omega
          rw [hmin]
          simp only [Nat.add_sub_cancel]
          rw [List.getD_eq_getElem?_getD, List.getElem?_take_of_lt (by omega),
            List.getElem?_set_self (by rw [hlen1]; omega)]
          exact hc

/-- A monomial vector (zeros then a non-zero lead) is canonical. -/
theorem canonical_monomial (k : Nat) (x : GF4) (hx : x ≠ 0) :
    canonical (List.replicate k 0 ++ [x]) := by
  refine Or.inr (Or.inr ?_)
  rw [List.getLast?_concat]
  intro hcontra
  rw [Option.some.injEq] at hcontra
  exact hx hcontra

/-- A vector that is not `is_zero` is neither empty nor `{0}`. -/
theorem not_isZero_shape (r : PolyG) (h : ¬polyIsZero r = true) :
    r ≠ [] ∧ r ≠ [0] := by
  constructor
  · intro hx; rw [hx] at h; exact h (by decide)
  · intro hx; rw [hx] at h; exact h (by decide)

/-- The `div_rem` loop keeps both the quotient and the remainder canonical. -/
theorem divRemLoop_canonical (b : PolyG) (bL : GF4) :
    ∀ (fuel : Nat) (q r q1 r1 : PolyG), canonical q → canonical r →
    divRemLoop b bL fuel q r = .ok (q1, r1) → canonical q1 ∧ canonical r1 := by
  intro fuel
  induction fuel with
  | zero =>
    intro q r q1 r1 _ _ h
    exact absurd h (by intro hx; cases hx)
  | succ fuel ih =>
    intro q r q1 r1 hq hr h
    unfold divRemLoop at h
    by_cases hg : ¬polyIsZero r = true ∧ degN r ≥ degN b
    · rw [if_pos hg] at h
      obtain ⟨hrne, hr0⟩ := not_isZero_shape r hg.1
      split at h
      case _ lead heq =>
        have hlead : lead ≠ 0 := by
          apply gf4Div_ok_ne_zero (r.getD (r.length - 1) 0) bL lead _ heq
          exact canonical_last_ne_zero r hr hrne hr0
        have ht : canonical (List.replicate (degN r - degN b) 0 ++ [lead]) :=
          canonical_monomial _ _ hlead
        simp only [] at h
        split at h
        case _ q2 tb hqa hmt =>
          split at h
          case _ r2 hra =>
            exact ih q2 r2 q1 r1
              (polyAdd_canonical q _ q2 hq hqa)
              (polyAdd_canonical r tb r2 hr hra)
              h
          case _ e hra => exact absurd h (by intro hx; cases hx)
          case _ hra => exact absurd h (by intro hx; cases hx)
          case _ hra => exact absurd h (by intro hx; cases hx)
        case _ e hqa => exact absurd h (by intro hx; cases hx)
        case _ e hqa hmt => exact absurd h (by intro hx; cases hx)
        case _ hqa hmt => exact absurd h (by intro hx; cases hx)
      case _ e heq => exact absurd h (by intro hx; cases hx)
      case _ heq hne => exact absurd h (by intro hx; cases hx)
    · rw [if_neg hg] at h
      rw [Res.ok.injEq] at h
      rw [Prod.mk.injEq] at h
      obtain ⟨h1, h2⟩ := h
      subst h1
      subst h2
      exact ⟨hq, hr⟩

/-- The `div_rem` loop keeps the quotient canonical whatever the other
inputs are: the quotient only ever grows by `operator+` with a non-empty
monomial, which preserves the receiver's canonical form. -/
theorem divRemLoop_q_canonical (b : PolyG) (bL : GF4) :
    ∀ (fuel : Nat) (q r q1 r1 : PolyG), canonical q →
    divRemLoop b bL fuel q r = .ok (q1, r1) → canonical q1 := by
  intro fuel
  induction fuel with
  | zero =>
    intro q r q1 r1 _ h
    exact absurd h (by intro hx; cases hx)
  | succ fuel ih =>
    intro q r q1 r1 hq h
    unfold divRemLoop at h
    by_cases hg : ¬polyIsZero r = true ∧ degN r ≥ degN b
    · rw [if_pos hg] at h
      split at h
      case _ lead heq =>
        simp only [] at h
        split at h
        case _ q2 tb hqa hmt =>
          split at h
          case _ r2 hra =>
            exact ih q2 r2 q1 r1 (polyAdd_canonical q _ q2 hq hqa) h
          case _ e hra => exact absurd h (by intro hx; cases hx)
          case _ hra => exact absurd h (by intro hx; cases hx)
          case _ hra => exact absurd h (by intro hx; cases hx)
        case _ e hqa => exact absurd h (by intro hx; cases hx)
        case _ e hqa hmt => exact absurd h (by intro hx; cases hx)
        case _ hqa hmt => exact absurd h (by intro hx; cases hx)
      case _ e heq => exact absurd h (by intro hx; cases hx)
      case _ heq hne => exact absurd h (by intro hx; cases hx)
    · rw [if_neg hg] at h
      rw [Res.ok.injEq, Prod.mk.injEq] at h
      obtain ⟨h1, h2⟩ := h
      subst h1
      exact hq

/-- C7 component: `div_rem` returns a canonical quotient and remainder on
canonical inputs. -/
theorem polyDivRem_canonical (a b q r : PolyG) (ha : canonical a) (_hb : canonical b)
    (h : polyDivRem a b = .ok (q, r)) : canonical q ∧ canonical r := by
  unfold polyDivRem at h
  by_cases hz : polyIsZero b = true
  · rw [if_pos hz] at h
    exact absurd h (by intro hx; cases hx)
  · rw [if_neg hz] at h
    by_cases hd : degN a < degN b
    · rw [if_pos hd] at h
      rw [Res.ok.injEq, Prod.mk.injEq] at h
      obtain ⟨h1, h2⟩ := h
      subst h1
      subst h2
      exact ⟨Or.inr (Or.inl rfl), ha⟩
    · rw [if_neg hd] at h
      exact divRemLoop_canonical b _ _ polyZero a q r (Or.inr (Or.inl rfl)) ha h

/-- The quotient of any successful `div_rem` is canonical, with no
assumptions on the operands. -/
theorem polyDivRem_q_canonical (a b q r : PolyG)
    (h : polyDivRem a b = .ok (q, r)) : canonical q := by
  unfold polyDivRem at h
  by_cases hz : polyIsZero b = true
  · rw [if_pos hz] at h
    exact absurd h (by intro hx; cases hx)
  · rw [if_neg hz] at h
    by_cases hd : degN a < degN b
    · rw [if_pos hd] at h
      rw [Res.ok.injEq, Prod.mk.injEq] at h
      obtain ⟨h1, _⟩ := h
      subst h1
      exact Or.inr (Or.inl rfl)
    · rw [if_neg hd] at h
      exact divRemLoop_q_canonical b _ _ polyZero a q r (Or.inr (Or.inl rfl)) h

/-- C7 component: `div_x_to_deg` (dropping the first `k` coefficients)
preserves canonical form. -/
theorem polyDivXToDeg_canonical (a : PolyG) (k : Nat) (out : PolyG)
    (ha : canonical a) (h : polyDivXToDeg a k = .ok out) : canonical out := by
  unfold polyDivXToDeg at h
  by_cases hk : k ≤ a.length
  · rw [if_pos hk] at h
    rw [Res.ok.injEq] at h
    subst h
    rcases ha with hnil | h0 | hlast
    · subst hnil
      rw [List.drop_nil]
      exact Or.inl rfl
    · subst h0
      match k, hk with
      | 0, _ => exact Or.inr (Or.inl rfl)
      | 1, _ => exact Or.inl rfl
    · rcases Nat.lt_or_ge k a.length with hlt | hge
      · refine Or.inr (Or.inr ?_)
        have hnd : List.drop k a ≠ [] := by
          intro hx
          have := congrArg List.length hx
          rw [List.length_drop] at this
          simp at this
          omega
        rw [getLast?_eq_getD_last _ hnd, List.length_drop,
          List.getD_eq_getElem?_getD, List.getElem?_drop]
        have harith : k + (a.length - k - 1) = a.length - 1 := by omega
        rw [harith]
        have hane : a ≠ [] := by
          intro hx
          rw [hx] at hlt
          simp at hlt
        rw [getLast?_eq_getD_last _ hane, List.getD_eq_getElem?_getD] at hlast
        intro hcontra
        rw [Option.some.injEq] at hcontra
        apply hlast
        rw [hcontra]
      · have hke : k = a.length := Nat.le_antisymm hk hge
        subst hke
        rw [List.drop_length]
        exact Or.inl rfl
  · rw [if_neg hk] at h
    exact absurd h (by intro hx; cases hx)

/-- Inversion of a successful monadic bind. -/
theorem resBind_ok_inv {α β : Type} {x : Res α} {f : α → Res β} {b : β}
    (h : Res.bind x f = .ok b) : ∃ a, x = .ok a ∧ f a = .ok b := by
  cases x with
  | ok a => exact ⟨a, rfl, h⟩
  | exn e => exact absurd h (by intro hx; cases hx)
  | ub => exact absurd h (by intro hx; cases hx)
  | diverge => exact absurd h (by intro hx; cases hx)

/-- C7 component: a returned modular inverse is canonical — it is the
quotient of the final division `tr.a01 / g`, and `div_rem` quotients are
always canonical. -/
theorem polyInvert_some_canonical (fuel : Nat) (p m q : PolyG)
    (h : polyInvert fuel p m = .ok (some q)) : canonical q := by
  unfold polyInvert at h
  by_cases hz : polyIsZero m = true
  · rw [if_pos hz] at h
    exact absurd h (by intro hx; cases hx)
  · rw [if_neg hz] at h
    obtain ⟨b, hb, h⟩ := resBind_ok_inv h
    obtain ⟨aktr, hak, h⟩ := resBind_ok_inv h
    obtain ⟨ak, tr⟩ := aktr
    obtain ⟨u, hu, h⟩ := resBind_ok_inv h
    obtain ⟨v, hv, h⟩ := resBind_ok_inv h
    obtain ⟨g, hg, h⟩ := resBind_ok_inv h
    by_cases hd : szdeg g ≠ 0
    · rw [if_pos hd] at h
      exact absurd h (by intro hx; exact Option.noConfusion (Res.ok.inj hx))
    · rw [if_neg hd] at h
      obtain ⟨qd, hqd, h2⟩ := resBind_ok_inv h
      have hqq : qd = q := by
        have h3 : Res.ok (some qd) = Res.ok (some q) := h2
        rw [Res.ok.injEq, Option.some.injEq] at h3
        exact h3
      subst hqq
      unfold polyDiv at hqd
      obtain ⟨qr, hqr, h4⟩ := resBind_ok_inv hqd
      have hq1 : qr.1 = qd := by
        have h5 : Res.ok qr.1 = Res.ok qd := h4
        rw [Res.ok.injEq] at h5
        exact h5
      subst hq1
      exact polyDivRem_q_canonical _ _ qr.1 qr.2 (by rw [Prod.mk.eta]; exact hqr)

/-- C7: after every public polynomial operation — construction from
coefficients, `set_coefficient`, addition, subtraction, multiplication,
scalar multiplication, `div_rem`, `div_x_to_deg`, `invert` — the resulting
polynomial is in canonical form: it is the zero polynomial, or its
highest-indexed stored coefficient is non-zero (and the tracked degree
`size - 1` is that index).  Operations return a `Res`: inputs on which
the C++ would read or write out of bounds, throw, or loop forever return no
polynomial and are covered vacuously. -/
theorem poly_ops_canonical :
    (∀ cs : List GF4, canonical (polyFromCoeffs cs)) ∧
    (∀ (cs : PolyG) (d : Nat) (v : GF4) (out : PolyG), canonical cs →
      polySetCoeff cs d v = .ok out → canonical out) ∧
    (∀ a b out : PolyG, canonical a → canonical b →
      polyAdd a b = .ok out → canonical out) ∧
    (∀ a b out : PolyG, canonical a → canonical b →
      polySub a b = .ok out → canonical out) ∧
    (∀ a b out : PolyG, canonical a → canonical b →
      polyMul a b = .ok out → canonical out) ∧
    (∀ (a : PolyG) (s : GF4) (out : PolyG), canonical a →
      polyScalarMul a s = .ok out → canonical out) ∧
    (∀ a b q r : PolyG, canonical a → canonical b →
      polyDivRem a b = .ok (q, r) → canonical q ∧ canonical r) ∧
    (∀ (a : PolyG) (k : Nat) (out : PolyG), canonical a →
      polyDivXToDeg a k = .ok out → canonical out) ∧
    (∀ (fuel : Nat) (p m q : PolyG), canonical p → canonical m →
      polyInvert fuel p m = .ok (some q) → canonical q) := by
  refine ⟨polyFromCoeffs_canonical,
    fun cs d v out hc h => polySetCoeff_canonical cs d v out hc h,
    fun a b out ha _ h => polyAdd_canonical a b out ha h,
    fun a b out ha _ h => polyAdd_canonical a b out ha h,
    fun a b out ha hb h => polyMul_canonical a b out ha hb h,
    fun a s out _ h => polyScalarMul_canonical a s out h,
    fun a b q r ha hb h => polyDivRem_canonical a b q r ha hb h,
    fun a k out ha h => polyDivXToDeg_canonical a k out ha h,
    fun fuel p m q _ _ h => polyInvert_some_canonical fuel p m q h⟩

/-- Witness for C7 at concrete inputs: `(1 + x) + 1 = x` is canonical, and
`div_rem(x^4 + 1, x + 1)` gives the canonical pair `(x^3 + x^2 + x + 1, 0)`. -/
theorem poly_ops_canonical_witness :
    canonical ([1, 1] : PolyG) ∧ canonical ([1] : PolyG) ∧
    polyAdd [1, 1] [1] = .ok [0, 1] ∧ canonical ([0, 1] : PolyG) ∧
    polyDivRem [1, 0, 0, 0, 1] [1, 1] = .ok ([1, 1, 1, 1], [0]) ∧
    canonical ([1, 1, 1, 1] : PolyG) ∧ canonical ([0] : PolyG) := by
  refine ⟨by decide, by decide, by decide, ?_, by decide, ?_, ?_⟩
  · exact poly_ops_canonical.2.2.1 [1, 1] [1] [0, 1] (by decide) (by decide) (by decide)
  · exact (poly_ops_canonical.2.2.2.2.2.2.1 [1, 0, 0, 0, 1] [1, 1] [1, 1, 1, 1] [0]
      (by decide) (by decide) (by decide)).1
  · exact (poly_ops_canonical.2.2.2.2.2.2.1 [1, 0, 0, 0, 1] [1, 1] [1, 1, 1, 1] [0]
      (by decide) (by decide) (by decide)).2
